import Mathlib

/-!
Verification of the LibreSSL RSA-OAEP encoding/decoding transform
(`rsa_oaep.c`) and the SM2 signature scheme (`sm2_sign.c`), via a shallow
embedding.  Bytes are modelled as natural numbers, octet strings as
`List Nat`, and C buffer writes as explicit list operations.  The pluggable
EVP message digest is modelled as an abstract function together with its
output size; the elliptic-curve group (a collaborator supplied by the EC
library, per the specification a short-Weierstrass prime-field curve with a
base point G of prime order n) is modelled by its prime-order cyclic
subgroup: a point [p]G is represented by its exponent p modulo n, with an
abstract x-coordinate assignment.
-/

set_option maxHeartbeats 1000000

/-- A message digest (EVP_MD collaborator): an abstract hash function
together with its declared output size in bytes (EVP_MD_size).  Well-formed
digests satisfy `∀ x, (f x).length = hLen`, carried as a hypothesis. -/
structure HashAlg where
  f : List Nat → List Nat
  hLen : Nat

/-- The 4-byte big-endian counter block written into cnt[0..3] by
PKCS1_MGF1: (i >> 24) & 255, (i >> 16) & 255, (i >> 8) & 255, i & 255. -/
def i2osp4 (i : Nat) : List Nat :=
  [i / 2 ^ 24 % 256, i / 2 ^ 16 % 256, i / 2 ^ 8 % 256, i % 256]

/-- The MGF1 production loop of PKCS1_MGF1: while outlen < len, hash
seed ‖ cnt(i) and append the digest, truncating the final block.  The C
loop is unbounded; `fuel` bounds the recursion and is chosen large enough
(len + 1) that it is never exhausted for a digest with positive output
size. -/
def mgf1Loop (dgst : HashAlg) (seed : List Nat) (len : Nat) :
    Nat → Nat → List Nat → List Nat
  | 0, _, out => out
  | fuel + 1, i, out =>
    if out.length < len then
      if out.length + dgst.hLen ≤ len then
        mgf1Loop dgst seed len fuel (i + 1) (out ++ dgst.f (seed ++ i2osp4 i))
      else
        out ++ (dgst.f (seed ++ i2osp4 i)).take (len - out.length)
    else out

/-- PKCS1_MGF1(mask, len, seed, seedlen, dgst): expand `seed` to `len` mask
bytes by concatenating digests of seed ‖ counter. -/
def PKCS1_MGF1 (dgst : HashAlg) (seed : List Nat) (len : Nat) : List Nat :=
  mgf1Loop dgst seed len (len + 1) 0 []

/-- Error results of RSA_padding_add_PKCS1_OAEP_mgf1:
RSA_R_DATA_TOO_LARGE_FOR_KEY_SIZE and RSA_R_KEY_SIZE_TOO_SMALL. -/
inductive EncodeErr where
  | dataTooLargeForKeySize
  | keySizeTooSmall
deriving DecidableEq

/-- Error results of RSA_padding_check_PKCS1_OAEP_mgf1:
RSA_R_OAEP_DECODING_ERROR and RSA_R_DATA_TOO_LARGE. -/
inductive DecodeErr where
  | oaepDecodingError
  | dataTooLarge
deriving DecidableEq

/-- RSA_padding_add_PKCS1_OAEP_mgf1(to, tlen, from, flen, param, plen, md,
mgf1md).  `tlen` is the full block length (the C code works with
emlen = tlen - 1 after the reserved leading zero byte); `fr`/`flen` are the
message, `label` the OAEP label (param), and `seed` the `mdlen` random
bytes drawn by arc4random_buf, supplied here as an input.  The two guard
comparisons are on C ints, hence taken over ℤ. -/
def RSA_padding_add_PKCS1_OAEP_mgf1 (md mgfh : HashAlg) (tlen : Nat)
    (fr : List Nat) (flen : Nat) (label seed : List Nat) :
    Except EncodeErr (List Nat) :=
  let mdlen := md.hLen
  if (flen : Int) > (tlen : Int) - 1 - 2 * mdlen - 1 then
    .error .dataTooLargeForKeySize
  else if (tlen : Int) - 1 < 2 * mdlen + 1 then
    .error .keySizeTooSmall
  else
    let emlen := tlen - 1
    let lhash := md.f label
    let ps := List.replicate (emlen - flen - 2 * mdlen - 1) 0
    let db := lhash ++ ps ++ 1 :: fr.take flen
    let dbmask := PKCS1_MGF1 mgfh seed (emlen - mdlen)
    let maskeddb := List.zipWith Nat.xor db dbmask
    let seedmask := PKCS1_MGF1 mgfh maskeddb mdlen
    let maskedseed := List.zipWith Nat.xor seed seedmask
    .ok (0 :: maskedseed ++ maskeddb)

/-- The decoder's separator scan (for i = mdlen; i < dblen; i++ looking for
the first nonzero byte): returns the offset of the first byte that is not
0x00, together with that byte, or none when the scan runs off the end. -/
def firstNonzero : List Nat → Option (Nat × Nat)
  | [] => none
  | b :: rest =>
    if b ≠ 0 then some (0, b)
    else (firstNonzero rest).map (fun x => (x.1 + 1, x.2))

/-- The padding-checking pipeline of RSA_padding_check_PKCS1_OAEP_mgf1,
up to but not including the output-buffer-size test: returns
some (mlen, db-suffix-after-separator) when every padding check passes
(modulus large enough, caller length within the block, label hash match,
separator byte 0x01 found), and none otherwise.  The single `bad` flag of
the C code (set when flen exceeds num - 1, with flen then clamped and the
buffer zero-padded on the left) is folded into the final test, exactly as
the C code folds it into `timingsafe_memcmp(...) != 0 || bad`. -/
def oaepCore (md mgfh : HashAlg) (fr : List Nat) (flen num0 : Nat)
    (label : List Nat) : Option (Nat × List Nat) :=
  let mdlen := md.hLen
  let num := num0 - 1
  if num < 2 * mdlen + 1 then none
  else
    let flen2 := min flen num
    let lzero := num - flen2
    let dblen := num - mdlen
    let padded := List.replicate lzero 0 ++ fr.take flen2
    let seedR := List.zipWith Nat.xor
      (PKCS1_MGF1 mgfh (padded.drop mdlen) mdlen) (padded.take mdlen)
    let db := List.zipWith Nat.xor
      (PKCS1_MGF1 mgfh seedR dblen) (padded.drop mdlen)
    let phash := md.f label
    if db.take mdlen ≠ phash.take mdlen ∨ num < flen then none
    else
      match firstNonzero (db.drop mdlen) with
      | none => none
      | some (j, v) =>
        if v ≠ 1 then none
        else some (dblen - (mdlen + j + 1), db.drop (mdlen + j + 1))

/-- RSA_padding_check_PKCS1_OAEP_mgf1(to, tlen, from, flen, num, param,
plen, md, mgf1md).  Returns the decode result together with the final
contents of the caller's output buffer `to`: the buffer is written (the
memcpy of mlen bytes) only on the all-checks-passed path; every error exit
leaves it untouched. -/
def RSA_padding_check_PKCS1_OAEP_mgf1 (md mgfh : HashAlg) (toBuf : List Nat)
    (tlen : Nat) (fr : List Nat) (flen num0 : Nat) (label : List Nat) :
    Except DecodeErr (List Nat) × List Nat :=
  match oaepCore md mgfh fr flen num0 label with
  | none => (.error .oaepDecodingError, toBuf)
  | some (mlen, p) =>
    if tlen < mlen then (.error .dataTooLarge, toBuf)
    else (.ok (p.take mlen), p.take mlen ++ toBuf.drop mlen)

/-- BN_bin2bn: interpret an octet string as a big-endian natural number. -/
def os2ip (bs : List Nat) : Nat :=
  bs.foldl (fun a b => a * 256 + b) 0

/-- Modelled from the spec: the EC_GROUP collaborator (the EC library is
not part of the analysed sources).  Per the specification the curve has a
designated base point G of prime order n, so the subgroup generated by G is
cyclic of order n; a point [p]G is represented by its exponent p modulo n,
and `xf p` is the affine x-coordinate of the non-identity point [p]G. -/
structure ECmodel where
  n : Nat
  xf : Nat → Nat

/-- EC_POINT_mul(group, r, k, NULL, NULL): the point [k]G, as an
exponent. -/
def sm2MulBase (m : ECmodel) (k : Nat) : Nat := k % m.n

/-- EC_POINT_mul(group, r, s, P, t): the point [s]G + [t]P, as an
exponent (P itself given as an exponent). -/
def sm2MulBasePlus (m : ECmodel) (s pA t : Nat) : Nat :=
  (s + t * pA) % m.n

/-- EC_POINT_get_affine_coordinates_GFp: the affine x-coordinate of a
point; fails (returns none) exactly on the point at infinity. -/
def sm2AffineX (m : ECmodel) (p : Nat) : Option Nat :=
  if p % m.n = 0 then none else some (m.xf (p % m.n))

/-- BN_mod_inverse(a, n): some b with a·b ≡ 1 (mod n) when a is invertible
modulo n, none otherwise. -/
def modInverse (a n : Nat) : Option Nat :=
  (List.range n).find? (fun b => a * b % n == 1)

/-- Outcome of the SM2 signing loop.  `ok r s k` also records (as ghost
data) the nonce k of the iteration that produced the signature;
`randomFailure` is SM2_R_RANDOM_NUMBER_GENERATION_FAILED, `ecFailure` an
ERR_R_EC_LIB failure (affine coordinates of the point at infinity),
`bnFailure` an ERR_R_BN_LIB failure (modular inverse does not exist),
and `running` means the for(;;) loop has not terminated within the given
number of iterations. -/
inductive SigRes where
  | ok (r s k : Nat)
  | randomFailure
  | ecFailure
  | bnFailure
  | running
deriving DecidableEq

/-- The for(;;) signing loop of SM2_sig_gen(key, e).  `rng i` models the
i-th call to BN_rand_range(k, order) (none = RNG failure; BN_rand_range
yields a value in [0, order)).  The C loop is unbounded; `fuel` counts the
iterations still allowed, `.running` meaning the loop is still going. -/
def SM2_sig_gen (m : ECmodel) (dA e : Nat) (rng : Nat → Option Nat) :
    Nat → Nat → SigRes
  | 0, _ => .running
  | fuel + 1, i =>
    match rng i with
    | none => .randomFailure
    | some k =>
      match sm2AffineX m (sm2MulBase m k) with
      | none => .ecFailure
      | some x1 =>
        let r := (e + x1) % m.n
        if r = 0 then SM2_sig_gen m dA e rng fuel (i + 1)
        else if r + k = m.n then SM2_sig_gen m dA e rng fuel (i + 1)
        else
          match modInverse (dA + 1) m.n with
          | none => .bnFailure
          | some inv =>
            let tmp := dA * r % m.n
            let s := (((inv : Int) * ((k : Int) - (tmp : Int))) % (m.n : Int)).toNat
            .ok r s k

/-- SM2_sig_verify(key, sig, e): range checks on r and s, t = (r+s) mod n
with t = 0 rejected, the point [s]G + [t]PA (rejected via the failing
affine-coordinate extraction when it is the identity), and the final
comparison r = (e + x1) mod n. -/
def SM2_sig_verify (m : ECmodel) (pA r s e : Nat) : Bool :=
  if r < 1 ∨ s < 1 then false
  else if m.n ≤ r ∨ m.n ≤ s then false
  else
    let t := (r + s) % m.n
    if t = 0 then false
    else
      match sm2AffineX m (sm2MulBasePlus m s pA t) with
      | none => false
      | some x1 => r == (e + x1) % m.n

/-- SM2_compute_msg_hash(digest, key, user_id, msg): e = OS2IP(H(ZA ‖ M)).
The ZA digest is produced by SM2_compute_userid_digest, which is not among
the analysed sources; modelled from the spec: ZA is an opaque octet string
binding user identity, curve parameters and public key, supplied here as
the input `za`. -/
def SM2_compute_msg_hash (md : HashAlg) (za msg : List Nat) : Nat :=
  os2ip (md.f (za ++ msg))

/-- SM2_do_sign(key, digest, user_id, msg): pre-hash then sign. -/
def SM2_do_sign (m : ECmodel) (md : HashAlg) (za msg : List Nat) (dA : Nat)
    (rng : Nat → Option Nat) (fuel : Nat) : SigRes :=
  SM2_sig_gen m dA (SM2_compute_msg_hash md za msg) rng fuel 0

/-- SM2_do_verify(key, digest, sig, user_id, msg): pre-hash then verify. -/
def SM2_do_verify (m : ECmodel) (md : HashAlg) (za msg : List Nat)
    (pA r s : Nat) : Bool :=
  SM2_sig_verify m pA r s (SM2_compute_msg_hash md za msg)

/-! ### Concrete instances used to evaluate the development on closed
inputs -/

/-- A one-byte digest that always outputs 0x07. -/
def hashC7 : HashAlg := ⟨fun _ => [7], 1⟩

/-- A one-byte digest that always outputs 0x00. -/
def hashC0 : HashAlg := ⟨fun _ => [0], 1⟩

/-- A one-byte digest that always outputs 0x02. -/
def hashC2 : HashAlg := ⟨fun _ => [2], 1⟩

/-- A one-byte digest summing its input modulo 256. -/
def hashSum : HashAlg := ⟨fun x => [x.sum % 256], 1⟩

/-- A group model of order 5 whose x-coordinate map is the identity. -/
def ecM5 : ECmodel := ⟨5, id⟩

/-- A group model of order 5 with constant x-coordinate 2. -/
def ecM5c : ECmodel := ⟨5, fun _ => 2⟩

/-- An RNG stream that always yields 2. -/
def rngTwo : Nat → Option Nat := fun _ => some 2

/-- An RNG stream that always yields 0. -/
def rngZero : Nat → Option Nat := fun _ => some 0

/-- An RNG stream that always fails. -/
def rngFail : Nat → Option Nat := fun _ => none

/-! ### Helper lemmas -/

/-- Ceiling division: the block count of MGF1 covers the requested
length. -/
theorem ceilDiv_mul_ge {len h : Nat} (hp : 0 < h) :
    len ≤ (len + h - 1) / h * h := by
  by_contra hc
  push_neg at hc
  set m := (len + h - 1) / h with hm
  have h3 : m * h + h ≤ len + h - 1 := by omega
  have h4 : m + 1 ≤ (len + h - 1) / h :=
    (Nat.le_div_iff_mul_le hp).2 (by rw [Nat.succ_mul]; exact h3)
  omega

/-- One byte of unmasking: xoring with the mask byte twice restores the
original byte. -/
theorem xor_unmask_byte (x y : Nat) : Nat.xor y (Nat.xor x y) = x := by
  have : y ^^^ (x ^^^ y) = x := by rw [Nat.xor_comm x y, Nat.xor_cancel_left]
  exact this

/-- Unmasking is the inverse of masking: xoring a masked buffer with the
same mask restores the original bytes. -/
theorem zipWith_xor_cancel (a b : List Nat) (h : a.length = b.length) :
    List.zipWith Nat.xor b (List.zipWith Nat.xor a b) = a := by
  induction a generalizing b with
  | nil => cases b <;> simp
  | cons x xs ih =>
    cases b with
    | nil => simp at h
    | cons y ys =>
      simp only [List.zipWith_cons_cons]
      rw [xor_unmask_byte, ih ys (by simpa using h)]

theorem firstNonzero_replicate (p : Nat) (rest : List Nat) :
    firstNonzero (List.replicate p 0 ++ 1 :: rest) = some (p, 1) := by
  induction p with
  | zero => simp [firstNonzero]
  | succ q ih =>
    rw [List.replicate_succ, List.cons_append, firstNonzero]
    simp [ih]

theorem firstNonzero_some_lt {l : List Nat} {j v : Nat}
    (h : firstNonzero l = some (j, v)) : j < l.length := by
  induction l generalizing j v with
  | nil => simp [firstNonzero] at h
  | cons b rest ih =>
    rw [firstNonzero] at h
    by_cases hb : b ≠ 0
    · rw [if_pos hb] at h
      simp only [Option.some.injEq, Prod.mk.injEq] at h
      simp [← h.1]
    · rw [if_neg hb] at h
      cases hfn : firstNonzero rest with
      | none => rw [hfn] at h; simp at h
      | some x =>
        rw [hfn] at h
        simp only [Option.map_some', Option.some.injEq, Prod.mk.injEq] at h
        have := @ih x.1 x.2 (by rw [hfn])
        simp only [List.length_cons]
        omega

theorem modInverse_some {a n b : Nat} (h : modInverse a n = some b) :
    a * b % n = 1 ∧ b < n := by
  unfold modInverse at h
  have h1 := List.find?_some h
  have h2 := List.mem_of_find?_eq_some h
  rw [List.mem_range] at h2
  simp only [beq_iff_eq] at h1
  exact ⟨h1, h2⟩

/-- Closed form of the MGF1 production loop: starting from a partial
output, the loop appends whole counter-indexed digest blocks and truncates
the last one, producing exactly the remaining number of bytes. -/
theorem mgf1Loop_closed (dgst : HashAlg) (seed : List Nat) (len : Nat)
    (hf : ∀ x, (dgst.f x).length = dgst.hLen) (hp : 0 < dgst.hLen) :
    ∀ fuel i out, len - out.length ≤ fuel →
    mgf1Loop dgst seed len fuel i out =
      out ++ (((List.range ((len - out.length + dgst.hLen - 1) / dgst.hLen)).map
        (fun j => dgst.f (seed ++ i2osp4 (i + j)))).flatten).take
        (len - out.length) := by
  intro fuel
  induction fuel with
  | zero =>
    intro i out h
    have h0 : len - out.length = 0 := Nat.le_zero.mp h
    have hq : (len - out.length + dgst.hLen - 1) / dgst.hLen = 0 := by
      rw [h0]; exact Nat.div_eq_of_lt (by omega)
    simp [mgf1Loop, h0, hq]
  | succ fuel ih =>
    intro i out h
    by_cases hlt : out.length < len
    · rw [mgf1Loop]
      simp only [if_pos hlt]
      by_cases hfull : out.length + dgst.hLen ≤ len
      · rw [if_pos hfull]
        have hlen : (out ++ dgst.f (seed ++ i2osp4 i)).length
            = out.length + dgst.hLen := by simp [hf]
        have hfuel : len - (out ++ dgst.f (seed ++ i2osp4 i)).length
            ≤ fuel := by rw [hlen]; omega
        rw [ih (i + 1) (out ++ dgst.f (seed ++ i2osp4 i)) hfuel, hlen]
        have hm : (len - out.length + dgst.hLen - 1) / dgst.hLen
            = (len - (out.length + dgst.hLen) + dgst.hLen - 1) / dgst.hLen
              + 1 := by
          have he : len - out.length + dgst.hLen - 1
              = (len - (out.length + dgst.hLen) + dgst.hLen - 1)
                + dgst.hLen := by omega
          rw [he, Nat.add_div_right _ hp]
        rw [List.append_assoc]
        congr 1
        rw [hm, List.range_succ_eq_map, List.map_cons, List.flatten_cons]
        have hshift : List.map
            (fun j => dgst.f (seed ++ i2osp4 (i + j)))
            (List.map Nat.succ (List.range
              ((len - (out.length + dgst.hLen) + dgst.hLen - 1)
                / dgst.hLen)))
            = List.map (fun j => dgst.f (seed ++ i2osp4 (i + 1 + j)))
              (List.range ((len - (out.length + dgst.hLen) + dgst.hLen - 1)
                / dgst.hLen)) := by
          rw [List.map_map]
          exact List.map_congr_left fun a _ => by
            simp only [Function.comp_apply]
            have hia : i + Nat.succ a = i + 1 + a := by omega
            rw [hia]
        rw [hshift, List.take_append_eq_append_take,
          List.take_of_length_le (le_of_eq_of_le (hf _) (by omega))]
        rw [hf]
        simp only [Nat.add_zero]
        have hc : len - (out.length + dgst.hLen)
            = len - out.length - dgst.hLen := by omega
        rw [hc]
      · rw [if_neg hfull]
        have hm : (len - out.length + dgst.hLen - 1) / dgst.hLen = 1 := by
          have he : len - out.length + dgst.hLen - 1
              = (len - out.length - 1) + dgst.hLen := by omega
          rw [he, Nat.add_div_right _ hp, Nat.div_eq_of_lt (by omega)]
        rw [hm]
        have hr1 : List.range 1 = [0] := rfl
        rw [hr1]
        simp only [List.map_cons, List.map_nil, List.flatten_cons,
          List.flatten_nil, List.append_nil, Nat.add_zero]
    · rw [mgf1Loop]
      simp only [if_neg hlt]
      have h0 : len - out.length = 0 := by omega
      have hq : (len - out.length + dgst.hLen - 1) / dgst.hLen = 0 := by
        rw [h0]; exact Nat.div_eq_of_lt (by omega)
      simp [h0, hq]

/-- PKCS1_MGF1 equals the specification's concatenate-and-truncate closed
form: the first ⌈len/hLen⌉ blocks Hash(seed ‖ I2OSP(i,4)), concatenated
and truncated to len bytes. -/
theorem PKCS1_MGF1_closed (dgst : HashAlg) (seed : List Nat) (len : Nat)
    (hf : ∀ x, (dgst.f x).length = dgst.hLen) (hp : 0 < dgst.hLen) :
    PKCS1_MGF1 dgst seed len =
      (((List.range ((len + dgst.hLen - 1) / dgst.hLen)).map
        (fun j => dgst.f (seed ++ i2osp4 j))).flatten).take len := by
  unfold PKCS1_MGF1
  rw [mgf1Loop_closed dgst seed len hf hp (len + 1) 0 [] (by simp)]
  simp

/-- PKCS1_MGF1 produces exactly `len` bytes of mask. -/
theorem PKCS1_MGF1_length (dgst : HashAlg) (seed : List Nat) (len : Nat)
    (hf : ∀ x, (dgst.f x).length = dgst.hLen) (hp : 0 < dgst.hLen) :
    (PKCS1_MGF1 dgst seed len).length = len := by
  rw [PKCS1_MGF1_closed dgst seed len hf hp, List.length_take]
  have hflat : (((List.range ((len + dgst.hLen - 1) / dgst.hLen)).map
      (fun j => dgst.f (seed ++ i2osp4 j))).flatten).length
      = (len + dgst.hLen - 1) / dgst.hLen * dgst.hLen := by
    rw [List.length_flatten, List.map_map]
    have hcg : List.map (List.length ∘ fun j => dgst.f (seed ++ i2osp4 j))
        (List.range ((len + dgst.hLen - 1) / dgst.hLen))
        = List.map (Function.const Nat dgst.hLen)
          (List.range ((len + dgst.hLen - 1) / dgst.hLen)) :=
      List.map_congr_left fun a _ => hf _
    rw [hcg, List.map_const, List.sum_replicate, List.length_range,
      smul_eq_mul]
  rw [hflat]
  have := @ceilDiv_mul_ge len dgst.hLen hp
  omega

/-- Anatomy of a successful signing run: a returned signature comes from an
iteration whose RNG call produced the recorded nonce k, with [k]G not the
identity, r = (e + x1) mod n nonzero, r + k ≠ n, the modular inverse of
dA + 1 available, and s computed from them as in the code. -/
theorem SM2_sig_gen_ok {m : ECmodel} {dA e : Nat} {rng : Nat → Option Nat}
    {fuel i r s k : Nat}
    (h : SM2_sig_gen m dA e rng fuel i = .ok r s k) :
    ∃ j inv, i ≤ j ∧ rng j = some k ∧ k % m.n ≠ 0 ∧
      r = (e + m.xf (k % m.n)) % m.n ∧ r ≠ 0 ∧ r + k ≠ m.n ∧
      modInverse (dA + 1) m.n = some inv ∧
      s = (((inv : Int) * ((k : Int) - ((dA * r % m.n : Nat) : Int)))
        % (m.n : Int)).toNat := by
  induction fuel generalizing i with
  | zero => simp [SM2_sig_gen] at h
  | succ fuel ih =>
    rw [SM2_sig_gen] at h
    cases hr : rng i with
    | none => rw [hr] at h; simp at h
    | some k0 =>
      rw [hr] at h
      dsimp only at h
      cases hax : sm2AffineX m (sm2MulBase m k0) with
      | none => rw [hax] at h; simp at h
      | some x1 =>
        rw [hax] at h
        simp only at h
        by_cases hr0 : (e + x1) % m.n = 0
        · rw [if_pos hr0] at h
          obtain ⟨j, inv, hj, hrest⟩ := ih h
          exact ⟨j, inv, by omega, hrest⟩
        · rw [if_neg hr0] at h
          by_cases hrk : (e + x1) % m.n + k0 = m.n
          · rw [if_pos hrk] at h
            obtain ⟨j, inv, hj, hrest⟩ := ih h
            exact ⟨j, inv, by omega, hrest⟩
          · rw [if_neg hrk] at h
            cases hinv : modInverse (dA + 1) m.n with
            | none => rw [hinv] at h; simp at h
            | some inv =>
              rw [hinv] at h
              simp only [SigRes.ok.injEq] at h
              obtain ⟨hre, hse, hke⟩ := h
              have hk0 : k0 % m.n ≠ 0 ∧ x1 = m.xf (k0 % m.n) := by
                unfold sm2AffineX sm2MulBase at hax
                rw [Nat.mod_mod_of_dvd k0 dvd_rfl] at hax
                by_cases hz : k0 % m.n = 0
                · rw [if_pos hz] at hax; simp at hax
                · rw [if_neg hz] at hax
                  simp only [Option.some.injEq] at hax
                  exact ⟨hz, hax.symm⟩
              refine ⟨i, inv, le_refl i, ?_⟩
              subst hke hre hse
              rw [← hk0.2]
              exact ⟨hr, hk0.1, rfl, hr0, hrk, rfl, rfl⟩

/-- When both length guards pass, OAEP encoding returns the block
0x00 ‖ maskedSeed ‖ maskedDB built from lHash ‖ PS ‖ 0x01 ‖ msg. -/
theorem oaep_encode_ok (md mgfh : HashAlg) (tlen : Nat) (fr : List Nat)
    (flen : Nat) (label seed : List Nat)
    (hg1 : (flen : Int) ≤ (tlen : Int) - 1 - 2 * md.hLen - 1)
    (hg2 : (2 : Int) * md.hLen + 1 ≤ (tlen : Int) - 1) :
    RSA_padding_add_PKCS1_OAEP_mgf1 md mgfh tlen fr flen label seed =
      .ok (0 :: List.zipWith Nat.xor seed
        (PKCS1_MGF1 mgfh
          (List.zipWith Nat.xor
            (md.f label ++ List.replicate (tlen - 1 - flen - 2 * md.hLen - 1) 0
              ++ 1 :: fr.take flen)
            (PKCS1_MGF1 mgfh seed (tlen - 1 - md.hLen))) md.hLen)
        ++ List.zipWith Nat.xor
          (md.f label ++ List.replicate (tlen - 1 - flen - 2 * md.hLen - 1) 0
            ++ 1 :: fr.take flen)
          (PKCS1_MGF1 mgfh seed (tlen - 1 - md.hLen))) := by
  simp only [RSA_padding_add_PKCS1_OAEP_mgf1]
  rw [if_neg (by omega), if_neg (by omega)]

/-- The padding-check pipeline inverts the encoder: applied to a block
maskedSeed ‖ maskedDB assembled from a data block lHash ‖ PS ‖ 0x01 ‖ msg
with the matching label, it recovers exactly msg. -/
theorem oaepCore_of_parts (md mgfh : HashAlg) (num0 : Nat)
    (label seed msg ps db dbmask maskeddb seedmask maskedseed : List Nat)
    (hh : ∀ x, (md.f x).length = md.hLen)
    (hm : ∀ x, (mgfh.f x).length = mgfh.hLen)
    (hp : 0 < mgfh.hLen)
    (hseed : seed.length = md.hLen)
    (hdb : db = md.f label ++ (ps ++ 1 :: msg))
    (hps : ps = List.replicate ps.length 0)
    (hnum : num0 - 1 = md.hLen + db.length)
    (hdbmask : dbmask = PKCS1_MGF1 mgfh seed (num0 - 1 - md.hLen))
    (hmaskeddb : maskeddb = List.zipWith Nat.xor db dbmask)
    (hseedmask : seedmask = PKCS1_MGF1 mgfh maskeddb md.hLen)
    (hmaskedseed : maskedseed = List.zipWith Nat.xor seed seedmask) :
    oaepCore md mgfh (maskedseed ++ maskeddb) (num0 - 1) num0 label
      = some (msg.length, msg) := by
  have hlabellen : (md.f label).length = md.hLen := hh label
  have hldb : db.length = md.hLen + ps.length + 1 + msg.length := by
    rw [hdb]
    simp [hlabellen]
    omega
  have hdbml : dbmask.length = db.length := by
    rw [hdbmask, PKCS1_MGF1_length mgfh seed _ hm hp]
    omega
  have hmdbl : maskeddb.length = db.length := by
    rw [hmaskeddb, List.length_zipWith]
    omega
  have hsml : seedmask.length = md.hLen := by
    rw [hseedmask, PKCS1_MGF1_length mgfh _ _ hm hp]
  have hmsl : maskedseed.length = md.hLen := by
    rw [hmaskedseed, List.length_zipWith]
    omega
  simp only [oaepCore]
  rw [if_neg (by omega : ¬(num0 - 1 < 2 * md.hLen + 1))]
  rw [Nat.min_self, Nat.sub_self]
  rw [show List.replicate 0 0 = ([] : List Nat) from rfl, List.nil_append]
  rw [List.take_of_length_le (by rw [List.length_append]; omega :
    (maskedseed ++ maskeddb).length ≤ num0 - 1)]
  rw [List.take_left' hmsl, List.drop_left' hmsl]
  rw [← hseedmask]
  have h5 : List.zipWith Nat.xor seedmask maskedseed = seed := by
    rw [hmaskedseed]
    exact zipWith_xor_cancel seed seedmask (by rw [hseed, hsml])
  rw [h5, ← hdbmask]
  have h7 : List.zipWith Nat.xor dbmask maskeddb = db := by
    rw [hmaskeddb]
    exact zipWith_xor_cancel db dbmask hdbml.symm
  rw [h7]
  have h8 : db.take md.hLen = md.f label := by
    rw [hdb]
    exact List.take_left' hlabellen
  have h9 : (md.f label).take md.hLen = md.f label :=
    List.take_of_length_le (le_of_eq hlabellen)
  rw [h8, h9]
  rw [if_neg (by simp : ¬(md.f label ≠ md.f label ∨ num0 - 1 < num0 - 1))]
  have h10 : db.drop md.hLen = List.replicate ps.length 0 ++ 1 :: msg := by
    rw [hdb, List.drop_left' hlabellen, ← hps]
  rw [h10, firstNonzero_replicate]
  simp only []
  rw [if_neg (by simp : ¬((1 : Nat) ≠ 1))]
  have harith : num0 - 1 - md.hLen - (md.hLen + ps.length + 1)
      = msg.length := by omega
  have hdrop : db.drop (md.hLen + ps.length + 1) = msg := by
    rw [hdb]
    have e1 : md.hLen + ps.length + 1 = (md.f label).length + (ps.length + 1) := by
      rw [hlabellen]
      omega
    rw [e1, List.drop_append, List.drop_append 1]
    rfl
  rw [harith, hdrop]

/-! ### Claims -/

/-- Claim C1: for every message, label and hash choice with
|msg| ≤ emLen − 2·hLen − 2, decoding the block produced by OAEP encoding
(same label, hash and MGF hash, output buffer at least |msg| bytes, the
caller passing the block with its leading zero byte stripped, as the
RSA-decrypt conversion does) succeeds and returns exactly msg. -/
theorem oaep_roundtrip (md mgfh : HashAlg) (tlen tolen : Nat)
    (msg label seed toBuf : List Nat)
    (hh : ∀ x, (md.f x).length = md.hLen)
    (hm : ∀ x, (mgfh.f x).length = mgfh.hLen)
    (hp : 0 < mgfh.hLen)
    (hseed : seed.length = md.hLen)
    (hlen : msg.length + 2 * md.hLen + 2 ≤ tlen)
    (hto : msg.length ≤ tolen) :
    ∃ em, RSA_padding_add_PKCS1_OAEP_mgf1 md mgfh tlen msg msg.length label seed
        = .ok em ∧
      RSA_padding_check_PKCS1_OAEP_mgf1 md mgfh toBuf tolen (em.drop 1)
        (tlen - 1) tlen label = (.ok msg, msg ++ toBuf.drop msg.length) := by
  have henc := oaep_encode_ok md mgfh tlen msg msg.length label seed
    (by omega) (by omega)
  refine ⟨_, henc, ?_⟩
  have hdrop1 : ∀ (l : List Nat), List.drop 1 (0 :: l) = l := fun _ => rfl
  simp only [List.take_length, List.append_assoc, List.cons_append, hdrop1]
  have hcore := oaepCore_of_parts md mgfh tlen label seed msg
    (List.replicate (tlen - 1 - msg.length - 2 * md.hLen - 1) 0)
    _ _ _ _ _ hh hm hp hseed rfl
    (by rw [List.length_replicate])
    (by simp only [List.length_append, List.length_replicate,
          List.length_cons, hh]
        omega)
    rfl rfl rfl rfl
  simp only [RSA_padding_check_PKCS1_OAEP_mgf1]
  rw [hcore]
  simp only []
  rw [if_neg (by omega : ¬ tolen < msg.length), List.take_length]

/-- Witness for C1: a concrete round-trip with a one-byte digest,
block length 6, message 0x09, empty label, seed byte 0x05. -/
theorem oaep_roundtrip_witness :
    ∃ em, RSA_padding_add_PKCS1_OAEP_mgf1 hashC7 hashC7 6 [9] 1 [] [5]
        = .ok em ∧
      RSA_padding_check_PKCS1_OAEP_mgf1 hashC7 hashC7 [0, 0, 0] 3 (em.drop 1)
        5 6 [] = (.ok [9], [9, 0, 0]) :=
  oaep_roundtrip hashC7 hashC7 6 3 [9] [] [5] [0, 0, 0]
    (fun _ => rfl) (fun _ => rfl) (by decide) rfl (by decide) (by decide)

/-- Claim C4: a failing decode reports exactly one of two kinds:
OaepDecodingError whenever the padding pipeline rejects (modulus too
small, caller length exceeding the block, label-hash mismatch, missing or
wrong 0x01 separator — all collapsed into the single error by oaepCore
returning none), and DataTooLarge exactly when every padding check passes
but the recovered plaintext length exceeds the caller's buffer. -/
theorem oaep_decode_errors (md mgfh : HashAlg) (toBuf : List Nat)
    (tlen : Nat) (fr : List Nat) (flen num0 : Nat) (label : List Nat) :
    ((RSA_padding_check_PKCS1_OAEP_mgf1 md mgfh toBuf tlen fr flen num0
        label).1 = .error .oaepDecodingError ↔
      oaepCore md mgfh fr flen num0 label = none)
    ∧ ((RSA_padding_check_PKCS1_OAEP_mgf1 md mgfh toBuf tlen fr flen num0
        label).1 = .error .dataTooLarge ↔
      ∃ mlen p, oaepCore md mgfh fr flen num0 label = some (mlen, p) ∧
        tlen < mlen)
    ∧ (∀ ms, (RSA_padding_check_PKCS1_OAEP_mgf1 md mgfh toBuf tlen fr flen
        num0 label).1 = .ok ms ↔
      ∃ mlen p, oaepCore md mgfh fr flen num0 label = some (mlen, p) ∧
        ¬ tlen < mlen ∧ ms = p.take mlen) := by
  unfold RSA_padding_check_PKCS1_OAEP_mgf1
  cases hc : oaepCore md mgfh fr flen num0 label with
  | none => simp
  | some v =>
    obtain ⟨mlen, p⟩ := v
    by_cases ht : tlen < mlen
    · simp [ht]
    · simp [ht]
      intro ms
      constructor
      · intro hms
        exact ⟨mlen, p, ⟨rfl, rfl⟩, by omega, hms.symm⟩
      · rintro ⟨m', p', ⟨h1, h2⟩, hle, hms⟩
        subst h1
        subst h2
        exact hms.symm

/-- A successful padding-check pipeline recovers a suffix whose length is
exactly the reported plaintext length. -/
theorem oaepCore_some_plen {md mgfh : HashAlg} {fr : List Nat}
    {flen num0 : Nat} {label : List Nat} {mlen : Nat} {p : List Nat}
    (hm : ∀ x, (mgfh.f x).length = mgfh.hLen)
    (hp : 0 < mgfh.hLen)
    (hfr : flen ≤ fr.length)
    (h : oaepCore md mgfh fr flen num0 label = some (mlen, p)) :
    p.length = mlen := by
  simp only [oaepCore] at h
  split at h
  · exact absurd h (by simp)
  · set flen2 := min flen (num0 - 1) with hflen2
    set padded := List.replicate (num0 - 1 - flen2) 0 ++ fr.take flen2
      with hpadded
    set seedR := List.zipWith Nat.xor
      (PKCS1_MGF1 mgfh (padded.drop md.hLen) md.hLen) (padded.take md.hLen)
      with hseedR
    set db := List.zipWith Nat.xor
      (PKCS1_MGF1 mgfh seedR (num0 - 1 - md.hLen)) (padded.drop md.hLen)
      with hdbv
    have hpadlen : padded.length = num0 - 1 := by
      rw [hpadded]
      simp only [List.length_append, List.length_replicate, List.length_take]
      omega
    have hdblen : db.length = num0 - 1 - md.hLen := by
      rw [hdbv, List.length_zipWith,
        PKCS1_MGF1_length mgfh seedR _ hm hp, List.length_drop, hpadlen,
        Nat.min_self]
    split at h
    · exact absurd h (by simp)
    · split at h
      · exact absurd h (by simp)
      · rename_i j v heq
        split at h
        · exact absurd h (by simp)
        · simp only [Option.some.injEq, Prod.mk.injEq] at h
          obtain ⟨hml, hpv⟩ := h
          subst hml
          subst hpv
          rw [List.length_drop, hdblen]

/-- Claim C10: on every failing decode path the caller's output buffer is
returned unmodified; bytes are written only on success, and then exactly
the recovered plaintext (of its exact length) is placed at the start of
the buffer. -/
theorem oaep_decode_buffer (md mgfh : HashAlg) (toBuf : List Nat)
    (tlen : Nat) (fr : List Nat) (flen num0 : Nat) (label : List Nat)
    (hm : ∀ x, (mgfh.f x).length = mgfh.hLen)
    (hp : 0 < mgfh.hLen)
    (hfr : fr.length = flen) :
    (∀ e, (RSA_padding_check_PKCS1_OAEP_mgf1 md mgfh toBuf tlen fr flen num0
        label).1 = .error e →
      (RSA_padding_check_PKCS1_OAEP_mgf1 md mgfh toBuf tlen fr flen num0
        label).2 = toBuf)
    ∧ (∀ ms, (RSA_padding_check_PKCS1_OAEP_mgf1 md mgfh toBuf tlen fr flen
        num0 label).1 = .ok ms →
      (RSA_padding_check_PKCS1_OAEP_mgf1 md mgfh toBuf tlen fr flen num0
        label).2 = ms ++ toBuf.drop ms.length) := by
  unfold RSA_padding_check_PKCS1_OAEP_mgf1
  cases hc : oaepCore md mgfh fr flen num0 label with
  | none => simp
  | some v =>
    obtain ⟨mlen, p⟩ := v
    have hplen : p.length = mlen :=
      oaepCore_some_plen hm hp (le_of_eq hfr.symm) hc
    by_cases ht : tlen < mlen
    · simp [ht]
    · simp only [ht, if_false, if_neg ht]
      refine ⟨fun e he => absurd he (by simp), fun ms hms => ?_⟩
      simp only [Except.ok.injEq] at hms
      rw [← hms]
      have : p.take mlen = p := by
        rw [← hplen]
        exact List.take_length p
      rw [this, hplen]

/-- Witness for C10: a concrete successful decode writes the plaintext. -/
theorem oaep_decode_buffer_witness :
    (RSA_padding_check_PKCS1_OAEP_mgf1 hashC7 hashC7 [0, 0, 0] 3
      [2, 0, 7, 6, 14] 5 6 []).2 = [9, 0, 0] :=
  (oaep_decode_buffer hashC7 hashC7 [0, 0, 0] 3 [2, 0, 7, 6, 14] 5 6 []
    (fun _ => rfl) (by decide) rfl).2 [9] rfl

/-- Claim C8, amended: encoding fails with DataTooLargeForKeySize exactly
when mLen > emLen − 2·hLen − 2 (emLen = tlen, the full block length); this
test fires first and subsumes every emLen < 2·hLen + 2 case for a
nonnegative message length, so KeySizeTooSmall is never returned; when
mLen ≤ emLen − 2·hLen − 2 encoding succeeds with an emLen-byte block. -/
theorem oaep_encode_errors (md mgfh : HashAlg) (tlen : Nat) (fr : List Nat)
    (flen : Nat) (label seed : List Nat)
    (hh : ∀ x, (md.f x).length = md.hLen)
    (hm : ∀ x, (mgfh.f x).length = mgfh.hLen)
    (hp : 0 < mgfh.hLen)
    (hseed : seed.length = md.hLen)
    (hfl : flen ≤ fr.length) :
    (RSA_padding_add_PKCS1_OAEP_mgf1 md mgfh tlen fr flen label seed
        = .error .dataTooLargeForKeySize ↔
      (tlen : Int) - 2 * md.hLen - 2 < flen)
    ∧ RSA_padding_add_PKCS1_OAEP_mgf1 md mgfh tlen fr flen label seed
        ≠ .error .keySizeTooSmall
    ∧ ((flen : Int) ≤ (tlen : Int) - 2 * md.hLen - 2 →
      ∃ em, RSA_padding_add_PKCS1_OAEP_mgf1 md mgfh tlen fr flen label seed
          = .ok em ∧ em.length = tlen) := by
  by_cases hg1 : (flen : Int) > (tlen : Int) - 1 - 2 * md.hLen - 1
  · have herr : RSA_padding_add_PKCS1_OAEP_mgf1 md mgfh tlen fr flen label
        seed = .error .dataTooLargeForKeySize := by
      simp only [RSA_padding_add_PKCS1_OAEP_mgf1]
      rw [if_pos hg1]
    refine ⟨by rw [herr]; constructor <;> intro <;> first | omega | rfl,
      by rw [herr]; simp, fun hcon => absurd hcon (by omega)⟩
  · have hg2 : (2 : Int) * md.hLen + 1 ≤ (tlen : Int) - 1 := by omega
    have henc := oaep_encode_ok md mgfh tlen fr flen label seed (by omega) hg2
    refine ⟨by rw [henc]; constructor <;> intro h <;> [cases h; omega],
      by rw [henc]; simp, fun _ => ⟨_, henc, ?_⟩⟩
    simp only [List.cons_append, List.length_cons, List.length_append,
      List.length_zipWith, PKCS1_MGF1_length mgfh _ _ hm hp,
      List.length_replicate, List.length_take, hseed,
      hh label]
    omega

/-- Counterexample to C8 as stated: with emLen = 3 < 2·hLen + 2 = 4 (and an
empty message) the encoder reports DataTooLargeForKeySize, not the
KeySizeTooSmall the claim requires for that case. -/
theorem oaep_encode_errors_cex :
    RSA_padding_add_PKCS1_OAEP_mgf1 hashC7 hashC7 3 [] 0 [] [5]
        = .error .dataTooLargeForKeySize
      ∧ (3 : Int) < 2 * hashC7.hLen + 2 := by
  constructor
  · rfl
  · decide

/-- Witness for C8 (amended) at a concrete instance: block length 6,
one-byte digest, one-byte message. -/
theorem oaep_encode_errors_witness :
    (RSA_padding_add_PKCS1_OAEP_mgf1 hashC7 hashC7 6 [9] 1 [] [5]
        = .error .dataTooLargeForKeySize ↔
      (6 : Int) - 2 * hashC7.hLen - 2 < 1)
    ∧ RSA_padding_add_PKCS1_OAEP_mgf1 hashC7 hashC7 6 [9] 1 [] [5]
        ≠ .error .keySizeTooSmall
    ∧ ((1 : Int) ≤ (6 : Int) - 2 * hashC7.hLen - 2 →
      ∃ em, RSA_padding_add_PKCS1_OAEP_mgf1 hashC7 hashC7 6 [9] 1 [] [5]
          = .ok em ∧ em.length = 6) :=
  oaep_encode_errors hashC7 hashC7 6 [9] 1 [] [5]
    (fun _ => rfl) (fun _ => rfl) (by decide) rfl (by decide)

/-- Claim C9: MGF1 returns exactly len bytes: the concatenation
hash(seed ‖ I2OSP(0,4)) ‖ hash(seed ‖ I2OSP(1,4)) ‖ … over
⌈len/hLen⌉ counter blocks, truncated to len bytes.  Determinism (equal
inputs give equal outputs) is definitional: PKCS1_MGF1 is a pure function
of its arguments. -/
theorem PKCS1_MGF1_spec (dgst : HashAlg) (seed : List Nat) (len : Nat)
    (hf : ∀ x, (dgst.f x).length = dgst.hLen) (hp : 0 < dgst.hLen) :
    (PKCS1_MGF1 dgst seed len).length = len ∧
    PKCS1_MGF1 dgst seed len =
      (((List.range ((len + dgst.hLen - 1) / dgst.hLen)).map
        (fun j => dgst.f (seed ++ i2osp4 j))).flatten).take len :=
  ⟨PKCS1_MGF1_length dgst seed len hf hp,
    PKCS1_MGF1_closed dgst seed len hf hp⟩

/-- Witness for C9: a concrete instance, seed [1,2], len 3, a one-byte
digest. -/
theorem PKCS1_MGF1_spec_witness :
    (PKCS1_MGF1 hashSum [1, 2] 3).length = 3 ∧
    PKCS1_MGF1 hashSum [1, 2] 3 =
      (((List.range ((3 + hashSum.hLen - 1) / hashSum.hLen)).map
        (fun j => hashSum.f ([1, 2] ++ i2osp4 j))).flatten).take 3 :=
  PKCS1_MGF1_spec hashSum [1, 2] 3 (fun _ => rfl) (by decide)

/-- Claim C3: SM2 verification accepts iff r and s lie in [1, n−1],
t = (r + s) mod n is nonzero, the point P = [s]G + [t]PA is not the
identity (equivalently, its affine x-extraction succeeds), and
r = (e + x1) mod n for the x-coordinate x1 of P; in every other case it
rejects. -/
theorem SM2_sig_verify_iff (m : ECmodel) (pA r s e : Nat) :
    SM2_sig_verify m pA r s e = true ↔
      (1 ≤ r ∧ r < m.n ∧ 1 ≤ s ∧ s < m.n ∧ (r + s) % m.n ≠ 0 ∧
        ∃ x1, sm2AffineX m (sm2MulBasePlus m s pA ((r + s) % m.n)) = some x1 ∧
          r = (e + x1) % m.n) := by
  unfold SM2_sig_verify
  by_cases h1 : r < 1 ∨ s < 1
  · rw [if_pos h1]
    simp only [Bool.false_eq_true, false_iff]
    rintro ⟨hr1, _, hs1, _, _, _⟩
    omega
  · rw [if_neg h1]
    by_cases h2 : m.n ≤ r ∨ m.n ≤ s
    · rw [if_pos h2]
      simp only [Bool.false_eq_true, false_iff]
      rintro ⟨_, hrn, _, hsn, _, _⟩
      omega
    · rw [if_neg h2]
      by_cases h3 : (r + s) % m.n = 0
      · rw [if_pos h3]
        simp only [Bool.false_eq_true, false_iff]
        rintro ⟨_, _, _, _, ht, _⟩
        exact ht h3
      · rw [if_neg h3]
        cases hax : sm2AffineX m (sm2MulBasePlus m s pA ((r + s) % m.n)) with
        | none =>
          simp only [Bool.false_eq_true, false_iff]
          rintro ⟨_, _, _, _, _, x1, hx1, _⟩
          simp at hx1
        | some x1 =>
          simp only [beq_iff_eq]
          constructor
          · intro hreq
            exact ⟨by omega, by omega, by omega, by omega, h3, x1, rfl, hreq⟩
          · rintro ⟨_, _, _, _, _, x1', hx1', heq⟩
            simp only [Option.some.injEq] at hx1'
            rw [← hx1'] at heq
            exact heq

/-- Counterexample to C5 as stated: BN_rand_range samples in [0, n−1], and
a compliant RNG output of 0 is consumed as the nonce — the generator then
fails on the EC side (affine coordinates of the identity) instead of never
using k = 0. -/
theorem SM2_sig_gen_k_cex :
    SM2_sig_gen ecM5 1 0 rngZero 3 0 = .ecFailure := rfl

/-- Claim C5, amended: the nonce is drawn by BN_rand_range from [0, n−1],
so k = 0 is possible: when the RNG returns 0 the generator uses it and
fails with the EC-library error, it does not resample.  Signing fails with
RandomFailure exactly on RNG failure: an RNG failure in the current
iteration yields RandomFailure at once, and a RandomFailure outcome can
only stem from some RNG call returning none. -/
theorem SM2_sig_gen_random (m : ECmodel) (dA e : Nat)
    (rng : Nat → Option Nat) (fuel i : Nat) :
    (rng i = none → SM2_sig_gen m dA e rng (fuel + 1) i = .randomFailure)
    ∧ (rng i = some 0 → SM2_sig_gen m dA e rng (fuel + 1) i = .ecFailure)
    ∧ (SM2_sig_gen m dA e rng fuel i = .randomFailure →
        ∃ j, i ≤ j ∧ rng j = none) := by
  refine ⟨fun hr => ?_, fun hr => ?_, ?_⟩
  · rw [SM2_sig_gen, hr]
  · rw [SM2_sig_gen, hr]
    dsimp only
    have hax : sm2AffineX m (sm2MulBase m 0) = none := by
      unfold sm2AffineX sm2MulBase
      simp
    rw [hax]
  · induction fuel generalizing i with
    | zero => intro h; simp [SM2_sig_gen] at h
    | succ fuel ih =>
      intro h
      rw [SM2_sig_gen] at h
      cases hr : rng i with
      | none => exact ⟨i, le_refl i, hr⟩
      | some k0 =>
        rw [hr] at h
        dsimp only at h
        cases hax : sm2AffineX m (sm2MulBase m k0) with
        | none => rw [hax] at h; simp at h
        | some x1 =>
          rw [hax] at h
          dsimp only at h
          by_cases hr0 : (e + x1) % m.n = 0
          · rw [if_pos hr0] at h
            obtain ⟨j, hj, hn⟩ := ih (i + 1) h
            exact ⟨j, by omega, hn⟩
          · rw [if_neg hr0] at h
            by_cases hrk : (e + x1) % m.n + k0 = m.n
            · rw [if_pos hrk] at h
              obtain ⟨j, hj, hn⟩ := ih (i + 1) h
              exact ⟨j, by omega, hn⟩
            · rw [if_neg hrk] at h
              cases hinv : modInverse (dA + 1) m.n with
              | none => rw [hinv] at h; simp at h
              | some inv => rw [hinv] at h; simp at h

/-- Witness for C5 (amended): a failing RNG yields RandomFailure; an RNG
yielding 0 makes the generator consume k = 0 and fail on the EC side. -/
theorem SM2_sig_gen_random_witness :
    SM2_sig_gen ecM5 1 0 rngFail 1 0 = .randomFailure
    ∧ SM2_sig_gen ecM5 1 0 rngZero 1 0 = .ecFailure :=
  ⟨(SM2_sig_gen_random ecM5 1 0 rngFail 0 0).1 rfl,
   (SM2_sig_gen_random ecM5 1 0 rngZero 0 0).2.1 rfl⟩

/-- Counterexample to C6 as stated: the generator can return a signature
with s = 0 (there is no s ≠ 0 restart in the code), violating 1 ≤ s. -/
theorem SM2_sig_gen_range_cex :
    SM2_sig_gen ecM5 1 0 rngTwo 1 0 = .ok 2 0 2 ∧ ¬ (1 ≤ (0 : Nat)) :=
  ⟨rfl, by decide⟩

/-- Claim C6, amended: every signature returned satisfies 1 ≤ r < n and
s < n, and in the iteration that produced it r was nonzero and r + k
differed from n (the generator restarted otherwise); but 1 ≤ s does not
hold in general, since the code lacks the s = 0 restart of the SM2
standard. -/
theorem SM2_sig_gen_range {m : ECmodel} {dA e fuel i r s k : Nat}
    {rng : Nat → Option Nat}
    (h : SM2_sig_gen m dA e rng fuel i = .ok r s k) :
    1 ≤ r ∧ r < m.n ∧ s < m.n ∧ r + k ≠ m.n := by
  obtain ⟨j, inv, _, _, hk0, hre, hr0, hrk, hinv, hse⟩ := SM2_sig_gen_ok h
  have hn1 : 1 ≤ m.n := by
    have := (modInverse_some hinv).2
    omega
  refine ⟨by omega, ?_, ?_, hrk⟩
  · rw [hre]
    exact Nat.mod_lt _ hn1
  · rw [hse]
    have hpos : (0 : Int) < (m.n : Int) := by exact_mod_cast hn1
    have hlt := Int.emod_lt_of_pos
      ((inv : Int) * ((k : Int) - ((dA * r % m.n : Nat) : Int))) hpos
    have hge := Int.emod_nonneg
      ((inv : Int) * ((k : Int) - ((dA * r % m.n : Nat) : Int)))
      (by omega : (m.n : Int) ≠ 0)
    have hcast := Int.toNat_of_nonneg hge
    omega

/-- Witness for C6 (amended): a concrete successful signature (4, 4) with
nonce 2 over the order-5 model. -/
theorem SM2_sig_gen_range_witness :
    1 ≤ 4 ∧ 4 < ecM5.n ∧ 4 < ecM5.n ∧ 4 + 2 ≠ ecM5.n :=
  SM2_sig_gen_range (show SM2_sig_gen ecM5 1 2 rngTwo 1 0 = .ok 4 4 2
    from rfl)

/-- Counterexample to C7 as stated: with an RNG stream whose every nonce
leads to a restart, the loop is still running after 33 > 32 iterations —
there is no retry cap and no SignRetryExhausted outcome in the code. -/
theorem SM2_sig_gen_cap_cex :
    SM2_sig_gen ecM5c 1 3 rngTwo 33 0 = .running := rfl

/-- Claim C7, amended: the for(;;) signing loop of SM2_sig_gen has no
iteration cap: whenever every RNG output leads to a restart (r = 0 or
r + k = n), the loop is still running after any number of iterations and
never terminates with a retry-exhaustion failure. -/
theorem SM2_sig_gen_unbounded (m : ECmodel) (dA e : Nat)
    (rng : Nat → Option Nat)
    (hbad : ∀ j, ∃ k, rng j = some k ∧ k % m.n ≠ 0 ∧
      ((e + m.xf (k % m.n)) % m.n = 0 ∨
        (e + m.xf (k % m.n)) % m.n + k = m.n)) :
    ∀ fuel i, SM2_sig_gen m dA e rng fuel i = .running := by
  intro fuel
  induction fuel with
  | zero => intro i; rfl
  | succ fuel ih =>
    intro i
    obtain ⟨k, hk, hknz, hrest⟩ := hbad i
    rw [SM2_sig_gen, hk]
    dsimp only
    have hax : sm2AffineX m (sm2MulBase m k) = some (m.xf (k % m.n)) := by
      unfold sm2AffineX sm2MulBase
      rw [Nat.mod_mod_of_dvd k dvd_rfl]
      rw [if_neg hknz]
    rw [hax]
    dsimp only
    cases hrest with
    | inl h0 => rw [if_pos h0]; exact ih (i + 1)
    | inr hrk =>
      by_cases h0 : (e + m.xf (k % m.n)) % m.n = 0
      · rw [if_pos h0]
        exact ih (i + 1)
      · rw [if_neg h0, if_pos hrk]
        exact ih (i + 1)

/-- Witness for C7 (amended): over the order-5 model with constant
x-coordinate 2 and e = 3, every nonce 2 gives r = 0, and the loop is still
running after 40 iterations. -/
theorem SM2_sig_gen_unbounded_witness :
    SM2_sig_gen ecM5c 1 3 rngTwo 40 0 = .running :=
  SM2_sig_gen_unbounded ecM5c 1 3 rngTwo
    (fun _ => ⟨2, rfl, by decide, Or.inl (by decide)⟩) 40 0

/-- Casting a Nat remainder into ℤ yields a value congruent to the
original number. -/
theorem natCast_mod_modEq (a n : Nat) :
    Int.ModEq (n : Int) ((a % n : Nat) : Int) (a : Int) := by
  rw [Int.natCast_mod]
  exact Int.emod_emod_of_dvd _ dvd_rfl

/-- Counterexample to C2 as stated: over the order-5 model with identity
x-coordinates, key dA = 1 (so PA = [1]G) and pre-hash e = 0, the nonce
k = 2 makes the signer return (r, s) = (2, 0); the code has no s = 0
restart, and verification of this just-produced signature rejects on the
s range check. -/
theorem SM2_roundtrip_cex :
    SM2_do_sign ecM5 hashC0 [] [] 1 rngTwo 1 = .ok 2 0 2
    ∧ SM2_do_verify ecM5 hashC0 [] [] (1 % ecM5.n) 2 0 = false :=
  ⟨rfl, rfl⟩

/-- Claim C2, amended: for every key pair (dA, PA = [dA]G), hash, identity
digest and message, if sign-message succeeds and the produced s is
nonzero, then verify-message on the same key, hash, identity and message
accepts.  (The unamended claim fails because the signer can produce s = 0,
which verification rejects; see the counterexample.) -/
theorem SM2_roundtrip {m : ECmodel} {md : HashAlg} {za msg : List Nat}
    {dA : Nat} {rng : Nat → Option Nat} {fuel r s k : Nat}
    (hk : ∀ i k', rng i = some k' → k' < m.n)
    (hok : SM2_do_sign m md za msg dA rng fuel = .ok r s k)
    (hs1 : 1 ≤ s) :
    SM2_do_verify m md za msg (dA % m.n) r s = true := by
  unfold SM2_do_sign at hok
  unfold SM2_do_verify
  obtain ⟨j, inv, hij, hrngj, hknz, hre, hr0, hrk, hinv, hse⟩ :=
    SM2_sig_gen_ok hok
  obtain ⟨hinv1, hinvlt⟩ := modInverse_some hinv
  have hklt : k < m.n := hk j k hrngj
  have hkmod : k % m.n = k := Nat.mod_eq_of_lt hklt
  rw [hkmod] at hknz hre
  have hk1 : 1 ≤ k := by omega
  have hn2 : 2 ≤ m.n := by omega
  have hN0 : (m.n : Int) ≠ 0 := by omega
  have hNpos : (0 : Int) < (m.n : Int) := by omega
  have hrlt : r < m.n := by rw [hre]; exact Nat.mod_lt _ (by omega)
  have hr1 : 1 ≤ r := by omega
  have hsval : (s : Int) =
      ((inv : Int) * ((k : Int) - ((dA * r % m.n : Nat) : Int)))
        % (m.n : Int) := by
    rw [hse]
    exact Int.toNat_of_nonneg (Int.emod_nonneg _ hN0)
  have hslt : s < m.n := by
    have hlt := Int.emod_lt_of_pos
      ((inv : Int) * ((k : Int) - ((dA * r % m.n : Nat) : Int))) hNpos
    omega
  -- base congruences
  have c1 : Int.ModEq (m.n : Int) ((dA % m.n : Nat) : Int) (dA : Int) :=
    natCast_mod_modEq dA m.n
  have c2 : Int.ModEq (m.n : Int) (((r + s) % m.n : Nat) : Int)
      ((r : Int) + s) := by
    have h := natCast_mod_modEq (r + s) m.n
    have hc : ((r + s : Nat) : Int) = (r : Int) + s := by push_cast; ring
    rw [hc] at h
    exact h
  have c3 : Int.ModEq (m.n : Int) (s : Int)
      ((inv : Int) * ((k : Int) - (dA : Int) * r)) := by
    have b1 : Int.ModEq (m.n : Int) (s : Int)
        ((inv : Int) * ((k : Int) - ((dA * r % m.n : Nat) : Int))) := by
      rw [hsval]
      exact Int.emod_emod_of_dvd _ dvd_rfl
    have b2 : Int.ModEq (m.n : Int) ((dA * r % m.n : Nat) : Int)
        ((dA : Int) * r) := by
      have h := natCast_mod_modEq (dA * r) m.n
      have hc : ((dA * r : Nat) : Int) = (dA : Int) * r := by push_cast; ring
      rw [hc] at h
      exact h
    exact b1.trans
      ((Int.ModEq.refl (inv : Int)).mul ((Int.ModEq.refl (k : Int)).sub b2))
  have c4 : Int.ModEq (m.n : Int) (((dA : Int) + 1) * (inv : Int)) 1 := by
    show (((dA : Int) + 1) * (inv : Int)) % (m.n : Int) = 1 % (m.n : Int)
    have hc : (((dA : Int) + 1) * (inv : Int))
        = (((dA + 1) * inv : Nat) : Int) := by push_cast; ring
    rw [hc, ← Int.natCast_mod, hinv1, Int.emod_eq_of_lt (by omega) (by omega)]
    norm_num
  -- the reconstructed point equals [k]G
  have key : Int.ModEq (m.n : Int)
      ((s : Int) + (((r + s) % m.n : Nat) : Int) * ((dA % m.n : Nat) : Int))
      (k : Int) := by
    have step2 : Int.ModEq (m.n : Int)
        ((s : Int) + (((r + s) % m.n : Nat) : Int) * ((dA % m.n : Nat) : Int))
        ((inv : Int) * ((k : Int) - (dA : Int) * r)
          + ((r : Int) + (inv : Int) * ((k : Int) - (dA : Int) * r))
            * (dA : Int)) :=
      c3.add ((c2.trans ((Int.ModEq.refl (r : Int)).add c3)).mul c1)
    have alg1 : (inv : Int) * ((k : Int) - (dA : Int) * r)
        + ((r : Int) + (inv : Int) * ((k : Int) - (dA : Int) * r))
          * (dA : Int)
        = (((dA : Int) + 1) * (inv : Int)) * ((k : Int) - (dA : Int) * r)
          + (r : Int) * dA := by ring
    rw [alg1] at step2
    have step4 : Int.ModEq (m.n : Int)
        ((((dA : Int) + 1) * (inv : Int)) * ((k : Int) - (dA : Int) * r)
          + (r : Int) * dA)
        (1 * ((k : Int) - (dA : Int) * r) + (r : Int) * dA) :=
      (c4.mul (Int.ModEq.refl _)).add (Int.ModEq.refl _)
    have alg2 : (1 : Int) * ((k : Int) - (dA : Int) * r) + (r : Int) * dA
        = (k : Int) := by ring
    rw [alg2] at step4
    exact step2.trans step4
  have hB : (s + (r + s) % m.n * (dA % m.n)) % m.n = k := by
    have h2 : (s + (r + s) % m.n * (dA % m.n)) % m.n = k % m.n := by
      have hkey : ((s : Int) + (((r + s) % m.n : Nat) : Int)
            * ((dA % m.n : Nat) : Int)) % (m.n : Int)
          = (k : Int) % (m.n : Int) := key
      exact_mod_cast hkey
    rw [h2, hkmod]
  -- t is nonzero
  have htne : (r + s) % m.n ≠ 0 := by
    intro ht0
    have hz : Int.ModEq (m.n : Int) 0 ((r : Int) + s) := by
      have h := c2
      rw [ht0] at h
      exact_mod_cast h
    have m1 : Int.ModEq (m.n : Int)
        (((r : Int) + s) * ((dA : Int) + 1)) (0 * ((dA : Int) + 1)) :=
      hz.symm.mul (Int.ModEq.refl _)
    have m2 : Int.ModEq (m.n : Int)
        (((r : Int) + s) * ((dA : Int) + 1))
        (((r : Int) + (inv : Int) * ((k : Int) - (dA : Int) * r))
          * ((dA : Int) + 1)) :=
      ((Int.ModEq.refl (r : Int)).add c3).mul (Int.ModEq.refl _)
    have a1 : ((r : Int) + (inv : Int) * ((k : Int) - (dA : Int) * r))
          * ((dA : Int) + 1)
        = (((dA : Int) + 1) * (inv : Int)) * ((k : Int) - (dA : Int) * r)
          + (r : Int) * ((dA : Int) + 1) := by ring
    have t1 := m2.symm.trans m1
    rw [a1] at t1
    have m3 : Int.ModEq (m.n : Int)
        (1 * ((k : Int) - (dA : Int) * r) + (r : Int) * ((dA : Int) + 1))
        ((((dA : Int) + 1) * (inv : Int)) * ((k : Int) - (dA : Int) * r)
          + (r : Int) * ((dA : Int) + 1)) :=
      (c4.symm.mul (Int.ModEq.refl _)).add (Int.ModEq.refl _)
    have t2 := m3.trans t1
    have a2 : (1 : Int) * ((k : Int) - (dA : Int) * r)
        + (r : Int) * ((dA : Int) + 1) = (r : Int) + k := by ring
    rw [a2] at t2
    have a3 : (0 : Int) * ((dA : Int) + 1) = 0 := by ring
    rw [a3] at t2
    have hdvd : (m.n : Int) ∣ ((r : Int) + k) := Int.modEq_zero_iff_dvd.mp t2
    have hdvdN : m.n ∣ (r + k) := by exact_mod_cast hdvd
    obtain ⟨c, hc⟩ := hdvdN
    rcases c with _ | _ | c
    · omega
    · omega
    · have h2n : m.n * 2 ≤ m.n * (c + 1 + 1) :=
        Nat.mul_le_mul (Nat.le_refl m.n) (by omega)
      omega
  -- run the verifier
  simp only [SM2_sig_verify]
  rw [if_neg (show ¬(r < 1 ∨ s < 1) by omega)]
  rw [if_neg (show ¬(m.n ≤ r ∨ m.n ≤ s) by omega)]
  rw [if_neg htne]
  have haxP : sm2AffineX m
      (sm2MulBasePlus m s (dA % m.n) ((r + s) % m.n)) = some (m.xf k) := by
    unfold sm2AffineX sm2MulBasePlus
    rw [hB, hkmod, if_neg (show ¬(k = 0) by omega)]
  rw [haxP]
  simp only [beq_iff_eq]
  exact hre

/-- Witness for C2 (amended): a concrete round trip over the order-5
model with identity x-coordinates, dA = 1, pre-hash e = 2 and nonce 2,
producing (r, s) = (4, 4), which verifies. -/
theorem SM2_roundtrip_witness :
    SM2_do_verify ecM5 hashC2 [] [] (1 % ecM5.n) 4 4 = true :=
  SM2_roundtrip
    (fun i k' h => by
      simp only [rngTwo, Option.some.injEq] at h
      subst h
      decide)
    (show SM2_do_sign ecM5 hashC2 [] [] 1 rngTwo 1 = .ok 4 4 2 from rfl)
    (by decide)
